import Mathlib

/-!
Shallow embedding of the `purse` persistent singly linked list
(`src/list/list.rs`, `src/list/node.rs`, `src/list/iterator.rs`).

A Rust `List<T>` holds `head : Option<Arc<UnsafeCell<Node<T>>>>`,
`tail : Option<Weak<UnsafeCell<Node<T>>>>` and a cached `size : usize`.
We model `Arc` handles as addresses into an explicit heap of nodes; a weak
link is an address whose `upgrade` succeeds as long as the address is
present in the heap (nothing is ever deallocated in the scenarios we
consider, matching "always resolvable while the List is alive").
`Arc::strong_count` is derived state: the count of a node is the number of
live `List` values (the `roots` argument) whose `head` is the node's
address plus the number of heap nodes whose `next.head` is that address —
exactly the strong handles that exist in the Rust program.  Rust's
chain-recursive functions become fueled functions returning `Option`
(`none` = fuel exhausted, or an `unwrap`/`upgrade` that would panic).
-/

namespace Purse

/-- `List<T>` (list.rs:59-64): optional head link, optional weak tail link,
cached element count. -/
structure ListV where
  head : Option Nat
  tail : Option Nat
  size : Nat
deriving DecidableEq

/-- `Node<T>` (list.rs:26-31): payload, remainder list, and the shared
atomic `mutating` flag. -/
structure Node (T : Type) where
  data : T
  next : ListV
  mutating : Bool
deriving DecidableEq

/-- The node store: an association list from addresses to nodes, plus the
next fresh address used by allocation. -/
structure Heap (T : Type) where
  mem : List (Nat × Node T)
  fresh : Nat
deriving DecidableEq

variable {T : Type}

/-- First-match association-list lookup. -/
def lookupA : List (Nat × Node T) → Nat → Option (Node T)
  | [], _ => none
  | p :: ps, a => if p.1 = a then some p.2 else lookupA ps a

/-- Dereference the `Arc` at `a` (`get_unwrapped_link_node`). -/
def Heap.find? (h : Heap T) (a : Nat) : Option (Node T) :=
  lookupA h.mem a

/-- Write the `next` field of the node at `a` through its `UnsafeCell`. -/
def Heap.writeNext (h : Heap T) (a : Nat) (v : ListV) : Heap T :=
  ⟨h.mem.map (fun p => if p.1 = a then (p.1, { p.2 with next := v }) else p), h.fresh⟩

/-- Store a value into the `mutating` flag of the node at `a`. -/
def Heap.writeFlag (h : Heap T) (a : Nat) (b : Bool) : Heap T :=
  ⟨h.mem.map (fun p => if p.1 = a then (p.1, { p.2 with mutating := b }) else p), h.fresh⟩

/-- `Arc::new(UnsafeCell::new(node))` (`new_link`): allocate a fresh node. -/
def Heap.alloc (h : Heap T) (n : Node T) : Nat × Heap T :=
  (h.fresh, ⟨(h.fresh, n) :: h.mem, h.fresh + 1⟩)

/-- Heap sanity: every allocated address is below the fresh bound. -/
def Heap.WF (h : Heap T) : Prop := ∀ p ∈ h.mem, p.1 < h.fresh

/-- `List::empty()` (list.rs:81-87). -/
def empty : ListV := ⟨none, none, 0⟩

/-- `List::prepend` (list.rs:109-127): one new node whose `next` shares
`self`'s head/tail/size; the returned list's `tail` is a plain copy of
`self.tail` (the source performs no or-with-the-new-node here). -/
def prepend (h : Heap T) (l : ListV) (x : T) : ListV × Heap T :=
  let an := h.alloc ⟨x, ⟨l.head, l.tail, l.size⟩, false⟩
  (⟨some an.1, l.tail, 1 + l.size⟩, an.2)

/-- `List::create` (list.rs:167-181): like `prepend` with the remainder
passed explicitly, except `tail` falls back to the freshly allocated head
node when `rest.tail` is `None`. -/
def create (h : Heap T) (x : T) (rest : ListV) : ListV × Heap T :=
  let t := rest.tail
  let sz := 1 + rest.size
  let an := h.alloc ⟨x, rest, false⟩
  (⟨some an.1, t.orElse (fun _ => some an.1), sz⟩, an.2)

/-- Derived `Arc::strong_count` of the node at `a`: live `List` values
(`roots`) with that head plus heap nodes whose `next.head` is `a`
(list.rs:218). -/
def strongCount (h : Heap T) (roots : List ListV) (a : Nat) : Nat :=
  roots.countP (fun l => l.head == some a) +
    h.mem.countP (fun p => p.2.next.head == some a)

/-- `Node::concat_list` (list.rs:451-465), the body of
`List::concat_immut` (list.rs:243-247): rebuild the chain from node `a`
with fresh `create`s, innermost first, attaching `right` at the end. -/
def concatList (h : Heap T) (fuel : Nat) (a : Nat) (right : ListV) :
    Option (ListV × Heap T) :=
  match fuel with
  | 0 => none
  | fuel + 1 =>
    match h.find? a with
    | none => none
    | some n =>
      match n.next.head with
      | none => some (create h n.data right)
      | some b =>
        match concatList h fuel b right with
        | none => none
        | some rh => some (create rh.2 n.data rh.1)

/-- `List::concat_mut` (list.rs:250-270) applied to the list value stored
in the `next` field of the node at `a`.  The source reads `self.head`
first, recurses into the head node's `next` (mutating the heap bottom-up),
then re-reads `self` — the recursion may have rewritten this node — and,
if the cached `tail` upgrades, overwrites that node's `next` with `right`;
finally it rewrites `self`'s own head/tail/size in place. -/
def concatMut (h : Heap T) (fuel : Nat) (a : Nat) (right : ListV) :
    Option (Heap T) :=
  match fuel with
  | 0 => none
  | fuel + 1 =>
    match h.find? a with
    | none => none
    | some n =>
      let step : Option (Option Nat × Heap T) :=
        match n.next.head with
        | some b => (concatMut h fuel b right).map (fun h1 => (some b, h1))
        | none => some (right.head, h)
      match step with
      | none => none
      | some oh =>
        match oh.2.find? a with
        | none => none
        | some n1 =>
          let spliced : Option (Heap T) :=
            match n1.next.tail with
            | some t =>
              match oh.2.find? t with
              | none => none
              | some _ => some (oh.2.writeNext t right)
            | none => some oh.2
          match spliced with
          | none => none
          | some h2 =>
            match h2.find? a with
            | none => none
            | some n2 =>
              some (h2.writeNext a
                ⟨oh.1.orElse (fun _ => right.head), right.tail,
                  n2.next.size + right.size⟩)

/-- `List::concat_mut` applied to the local variable `list` inside
`concat` (list.rs:233-235): same body, but `self` is a stack local, so its
fields cannot be aliased by the heap writes of the recursion. -/
def concatMutTop (h : Heap T) (fuel : Nat) (self right : ListV) :
    Option (ListV × Heap T) :=
  let step : Option (Option Nat × Heap T) :=
    match self.head with
    | some b => (concatMut h fuel b right).map (fun h1 => (some b, h1))
    | none => some (right.head, h)
  match step with
  | none => none
  | some oh =>
    let spliced : Option (Heap T) :=
      match self.tail with
      | some t =>
        match oh.2.find? t with
        | none => none
        | some _ => some (oh.2.writeNext t right)
      | none => some oh.2
    match spliced with
    | none => none
    | some h2 =>
      some (⟨oh.1.orElse (fun _ => right.head), right.tail,
        self.size + right.size⟩, h2)

/-- `List::concat` (list.rs:208-241).  Empty `self` returns a clone of
`right`; empty `right` returns a clone of `self`; a strong count other
than one falls back to the immutable copy path; otherwise the code
compare-and-swaps the `mutating` flag of the node reached through
`self.head` — falling back to the copy path if the flag was already set —
and runs `concat_mut` on a clone of `self`, clearing the flag afterwards. -/
def concat (h : Heap T) (others : List ListV) (fuel : Nat)
    (self right : ListV) : Option (ListV × Heap T) :=
  match self.head with
  | none => some (right, h)
  | some a =>
    if right.size = 0 then some (self, h)
    else if strongCount h (self :: others) a ≠ 1 then concatList h fuel a right
    else
      match h.find? a with
      | none => none
      | some n =>
        if n.mutating then concatList h fuel a right
        else
          match concatMutTop (h.writeFlag a true) fuel self right with
          | none => none
          | some rh => some (rh.1, rh.2.writeFlag a false)

/-- `List::append` (list.rs:148-150): `self.concat(&List::create(data,
List::empty()))`. -/
def append (h : Heap T) (others : List ListV) (fuel : Nat) (l : ListV)
    (x : T) : Option (ListV × Heap T) :=
  let sh := create h x empty
  concat sh.2 others fuel l sh.1

/-- `List::len` (list.rs:288-290): the cached size. -/
def len (l : ListV) : Nat := l.size

/-- `List::first` (list.rs:314-316): the head node's data, if any. -/
def first (h : Heap T) (l : ListV) : Option T :=
  l.head.bind (fun a => (h.find? a).map (·.data))

/-- `List::last` (list.rs:334-338): upgrade the weak `tail` link and read
its data; `none` when `tail` is `None` (the "absent value" for the empty
list) or — a would-be panic — when the upgrade fails. -/
def last (h : Heap T) (l : ListV) : Option T :=
  l.tail.bind (fun a => (h.find? a).map (·.data))

/-- The elements produced by fully iterating a list
(`Iterator for IntoIter`, iterator.rs:8-25): repeatedly yield the head
node's data and step to its `next` list.  `none` when the fuel runs out
before the walk reaches an empty head (i.e. iteration does not terminate
within `fuel` steps) or a link dangles. -/
def elemsF (h : Heap T) (fuel : Nat) (l : ListV) : Option (List T) :=
  match l.head with
  | none => some []
  | some a =>
    match fuel with
    | 0 => none
    | fuel + 1 =>
      match h.find? a with
      | none => none
      | some n => (elemsF h fuel n.next).map (fun es => n.data :: es)

/-- `PartialEq for List` (list.rs:406-423): sizes first, then heads, then
data equality and recursion on the `next` lists, short-circuiting.
`none` only when the fuel runs out or a link dangles. -/
def eqF [DecidableEq T] (h : Heap T) (fuel : Nat) (l r : ListV) :
    Option Bool :=
  if l.size ≠ r.size then some false
  else
    match l.head, r.head with
    | none, none => some true
    | some a, some b =>
      match fuel with
      | 0 => none
      | fuel + 1 =>
        match h.find? a, h.find? b with
        | some n, some m =>
          if n.data = m.data then eqF h fuel n.next m.next else some false
        | _, _ => none
    | _, _ => some false

/-- Outcome of `list[i]`: the element, the out-of-bounds panic (which
reports the current length and the requested index, list.rs:358-364), or a
different panic (the `assert!(self.next.size > 0)` in `Node::index` or an
unwrap of a missing link). -/
inductive IdxResult (T : Type) where
  | ok (t : T)
  | oob (len idx : Nat)
  | fault
deriving DecidableEq

/-- `Node::index` (list.rs:370-383): zero-based offset within the chain
rooted at the node at `a`; asserts the remainder is non-empty before each
recursive step. -/
def nodeIndex (h : Heap T) : Nat → Nat → IdxResult T
  | 0, a =>
    match h.find? a with
    | none => .fault
    | some n => .ok n.data
  | j + 1, a =>
    match h.find? a with
    | none => .fault
    | some n =>
      if n.next.size > 0 then
        match n.next.head with
        | some b => nodeIndex h j b
        | none => .fault
      else .fault

/-- `Index<usize> for List` (list.rs:354-368): bounds check against the
cached size — panicking with both the length and the index — then
delegate to `Node::index`. -/
def index (h : Heap T) (l : ListV) (i : Nat) : IdxResult T :=
  if l.size ≤ i then .oob l.size i
  else
    match l.head with
    | none => .fault
    | some a => nodeIndex h i a

/-- Modelled from `#[derive(Default)]` on `List` (list.rs:59): each field
takes its type's default — `Option` defaults to `None`, `usize` to `0`. -/
def defaultList : ListV := ⟨none, none, 0⟩

/-- The data stored along a list of addresses; `none` if any dangles. -/
def chainData (h : Heap T) : List Nat → Option (List T)
  | [] => some []
  | a :: as =>
    match h.find? a with
    | none => none
    | some n => (chainData h as).map (fun es => n.data :: es)

/-- Representation invariant relating a `ListV` to the addresses of its
chain: `head` is the first address, `size` the chain length, `tail`
designates the last node, and each node's `next` satisfies the same
invariant for the remaining addresses.  This is the spec's §3 invariant
("`tail` resolves to the last Node", "`size` equals the number of
reachable Nodes") stated over the heap. -/
def WFfrom (h : Heap T) : List Nat → ListV → Bool
  | [], l =>
    decide (l.head = none) && decide (l.tail = none) && decide (l.size = 0)
  | a :: as, l =>
    decide (l.head = some a) && decide (l.size = as.length + 1) &&
    decide (l.tail = (a :: as).getLast?) &&
    (match h.find? a with
     | some n => WFfrom h as n.next
     | none => false)

end Purse

namespace Purse

variable {T : Type}

/-! ### Heap lemmas -/

theorem lookupA_map_write (ms : List (Nat × Node T)) (a b : Nat)
    (f : Node T → Node T) :
    lookupA (ms.map (fun p => if p.1 = a then (p.1, f p.2) else p)) b =
      if b = a then (lookupA ms a).map f else lookupA ms b := by
  induction ms with
  | nil => by_cases hba : b = a <;> simp [lookupA, hba]
  | cons p rest ih =>
    obtain ⟨k, n⟩ := p
    by_cases hka : k = a <;> by_cases hkb : k = b
    · subst hka; subst hkb
      simp [lookupA]
    · subst hka
      have hba : ¬ b = k := fun hh => hkb hh.symm
      simp [lookupA, hkb, hba, ih]
    · subst hkb
      simp [lookupA, hka]
    · simp [lookupA, hka, hkb, ih]

theorem Heap.find?_writeNext (h : Heap T) (a b : Nat) (v : ListV) :
    (h.writeNext a v).find? b =
      if b = a then (h.find? a).map (fun n => { n with next := v })
      else h.find? b := by
  simpa [Heap.writeNext, Heap.find?] using
    lookupA_map_write h.mem a b (fun n => { n with next := v })

theorem Heap.find?_writeFlag (h : Heap T) (a b : Nat) (bl : Bool) :
    (h.writeFlag a bl).find? b =
      if b = a then (h.find? a).map (fun n => { n with mutating := bl })
      else h.find? b := by
  simpa [Heap.writeFlag, Heap.find?] using
    lookupA_map_write h.mem a b (fun n => { n with mutating := bl })

theorem Heap.find?_alloc (h : Heap T) (n : Node T) (b : Nat) :
    (h.alloc n).2.find? b = if b = h.fresh then some n else h.find? b := by
  by_cases hb : b = h.fresh
  · subst hb
    simp [Heap.alloc, Heap.find?, lookupA]
  · have hfb : ¬ h.fresh = b := fun hh => hb hh.symm
    simp [Heap.alloc, Heap.find?, lookupA, hfb, hb]

theorem Heap.fresh_writeNext (h : Heap T) (a : Nat) (v : ListV) :
    (h.writeNext a v).fresh = h.fresh := rfl

theorem Heap.fresh_writeFlag (h : Heap T) (a : Nat) (bl : Bool) :
    (h.writeFlag a bl).fresh = h.fresh := rfl

theorem Heap.fresh_alloc (h : Heap T) (n : Node T) :
    (h.alloc n).2.fresh = h.fresh + 1 := rfl

theorem Heap.WF_writeNext (h : Heap T) (a : Nat) (v : ListV) (hw : h.WF) :
    (h.writeNext a v).WF := by
  intro p hp
  simp only [Heap.writeNext, List.mem_map] at hp
  obtain ⟨q, hq, hqe⟩ := hp
  subst hqe
  by_cases hqa : q.1 = a <;> simp [Heap.writeNext, hqa] <;>
    first
    | exact hqa ▸ hw q hq
    | exact hw q hq

theorem Heap.WF_writeFlag (h : Heap T) (a : Nat) (bl : Bool) (hw : h.WF) :
    (h.writeFlag a bl).WF := by
  intro p hp
  simp only [Heap.writeFlag, List.mem_map] at hp
  obtain ⟨q, hq, hqe⟩ := hp
  subst hqe
  by_cases hqa : q.1 = a <;> simp [Heap.writeFlag, hqa] <;>
    first
    | exact hqa ▸ hw q hq
    | exact hw q hq

theorem Heap.WF_alloc (h : Heap T) (n : Node T) (hw : h.WF) :
    (h.alloc n).2.WF := by
  intro p hp
  simp only [Heap.alloc, List.mem_cons] at hp
  rcases hp with hp | hp
  · subst hp; exact Nat.lt_succ_self _
  · exact Nat.lt_succ_of_lt (hw p hp)

theorem lookupA_mem (ms : List (Nat × Node T)) (a : Nat) (n : Node T)
    (hf : lookupA ms a = some n) : (a, n) ∈ ms := by
  induction ms with
  | nil => simp [lookupA] at hf
  | cons p rest ih =>
    by_cases hpa : p.1 = a
    · simp only [lookupA, if_pos hpa] at hf
      cases hf
      have hpe : (a, p.2) = p := by
        obtain ⟨p1, p2⟩ := p
        cases hpa
        rfl
      rw [hpe]
      exact List.mem_cons_self _ _
    · simp only [lookupA, if_neg hpa] at hf
      exact List.mem_cons_of_mem _ (ih hf)

theorem Heap.find?_lt_fresh (h : Heap T) (a : Nat) (n : Node T)
    (hw : h.WF) (hf : h.find? a = some n) : a < h.fresh :=
  hw (a, n) (lookupA_mem h.mem a n hf)

/-! ### The representation invariant -/

theorem WFfrom_nil_iff (h : Heap T) (l : ListV) :
    WFfrom h [] l = true ↔ l = ⟨none, none, 0⟩ := by
  simp only [WFfrom, Bool.and_eq_true, decide_eq_true_eq]
  constructor
  · rintro ⟨⟨h1, h2⟩, h3⟩
    cases l
    simp_all
  · rintro rfl
    simp

theorem WFfrom_cons_iff (h : Heap T) (a : Nat) (as : List Nat) (l : ListV) :
    WFfrom h (a :: as) l = true ↔
      l.head = some a ∧ l.size = as.length + 1 ∧
        l.tail = (a :: as).getLast? ∧
        ∃ n, h.find? a = some n ∧ WFfrom h as n.next = true := by
  simp only [WFfrom, Bool.and_eq_true, decide_eq_true_eq]
  constructor
  · rintro ⟨⟨⟨h1, h2⟩, h3⟩, h4⟩
    refine ⟨h1, h2, h3, ?_⟩
    cases hf : h.find? a with
    | none => rw [hf] at h4; exact absurd h4 (by simp)
    | some n => rw [hf] at h4; exact ⟨n, rfl, h4⟩
  · rintro ⟨h1, h2, h3, n, hf, h4⟩
    refine ⟨⟨⟨h1, h2⟩, h3⟩, ?_⟩
    rw [hf]
    exact h4

theorem WFfrom_fields (h : Heap T) (as : List Nat) (l : ListV)
    (hw : WFfrom h as l = true) :
    l = ⟨as.head?, as.getLast?, as.length⟩ := by
  cases as with
  | nil =>
    rw [WFfrom_nil_iff] at hw
    simpa using hw
  | cons a as =>
    rw [WFfrom_cons_iff] at hw
    obtain ⟨h1, h2, h3, -⟩ := hw
    cases l
    simp_all

theorem WFfrom_dom (h : Heap T) (as : List Nat) (l : ListV)
    (hw : WFfrom h as l = true) : ∀ c ∈ as, ∃ n, h.find? c = some n := by
  induction as generalizing l with
  | nil => simp
  | cons a as ih =>
    rw [WFfrom_cons_iff] at hw
    obtain ⟨-, -, -, n, hf, hw'⟩ := hw
    intro c hc
    rcases List.mem_cons.mp hc with hc | hc
    · subst hc; exact ⟨n, hf⟩
    · exact ih n.next hw' c hc

theorem WFfrom_congr (h h' : Heap T) (as : List Nat) (l : ListV)
    (hsame : ∀ c ∈ as, (h'.find? c).map (·.next) = (h.find? c).map (·.next))
    (hw : WFfrom h as l = true) : WFfrom h' as l = true := by
  induction as generalizing l with
  | nil =>
    rw [WFfrom_nil_iff] at hw ⊢
    exact hw
  | cons a as ih =>
    rw [WFfrom_cons_iff] at hw ⊢
    obtain ⟨h1, h2, h3, n, hf, hw'⟩ := hw
    refine ⟨h1, h2, h3, ?_⟩
    have hs := hsame a (List.mem_cons_self a as)
    rw [hf] at hs
    cases hfa : h'.find? a with
    | none => rw [hfa] at hs; simp at hs
    | some m =>
      rw [hfa] at hs
      simp only [Option.map_some', Option.some.injEq] at hs
      refine ⟨m, rfl, ?_⟩
      rw [hs]
      exact ih n.next (fun c hc => hsame c (List.mem_cons_of_mem a hc)) hw'

theorem WFfrom_last (h : Heap T) (bs : List Nat) (t : Nat) :
    ∀ (xs : List Nat) (v : ListV), WFfrom h (xs ++ bs) v = true →
      xs.getLast? = some t →
      ∃ nt, h.find? t = some nt ∧ WFfrom h bs nt.next = true := by
  intro xs
  induction xs with
  | nil =>
    intro v _ hlast
    simp at hlast
  | cons x xs ih =>
    intro v hw hlast
    rw [List.cons_append, WFfrom_cons_iff] at hw
    obtain ⟨-, -, -, n, hf, hw'⟩ := hw
    cases xs with
    | nil =>
      simp only [List.getLast?_singleton, Option.some.injEq] at hlast
      subst hlast
      exact ⟨n, hf, by simpa using hw'⟩
    | cons y ys =>
      rw [List.getLast?_cons_cons] at hlast
      exact ih n.next hw' hlast

/-! ### Chain data and iteration -/

theorem chainData_congr (h h' : Heap T) (as : List Nat)
    (hsame : ∀ c ∈ as,
      (h'.find? c).map (·.data) = (h.find? c).map (·.data)) :
    chainData h' as = chainData h as := by
  induction as with
  | nil => rfl
  | cons a as ih =>
    have ha := hsame a (List.mem_cons_self a as)
    simp only [chainData]
    cases hf : h.find? a with
    | none =>
      rw [hf] at ha
      cases hfa : h'.find? a with
      | none => rfl
      | some m => rw [hfa] at ha; simp at ha
    | some n =>
      rw [hf] at ha
      cases hfa : h'.find? a with
      | none => rw [hfa] at ha; simp at ha
      | some m =>
        rw [hfa] at ha
        simp only [Option.map_some', Option.some.injEq] at ha
        show (chainData h' as).map (fun es => m.data :: es) =
          (chainData h as).map (fun es => n.data :: es)
        rw [ih (fun c hc => hsame c (List.mem_cons_of_mem a hc)), ha]

theorem chainData_of_WFfrom (h : Heap T) (as : List Nat) (l : ListV)
    (hw : WFfrom h as l = true) :
    ∃ es, chainData h as = some es ∧ es.length = as.length := by
  induction as generalizing l with
  | nil => exact ⟨[], rfl, rfl⟩
  | cons a as ih =>
    rw [WFfrom_cons_iff] at hw
    obtain ⟨-, -, -, n, hf, hw'⟩ := hw
    obtain ⟨es, he, hl⟩ := ih n.next hw'
    exact ⟨n.data :: es, by simp [chainData, hf, he], by simp [hl]⟩

theorem chainData_append_of (h : Heap T) (as bs : List Nat)
    (ea eb : List T) (ha : chainData h as = some ea)
    (hb : chainData h bs = some eb) :
    chainData h (as ++ bs) = some (ea ++ eb) := by
  induction as generalizing ea with
  | nil =>
    simp only [chainData, Option.some.injEq] at ha
    subst ha
    simpa using hb
  | cons a as ih =>
    simp only [chainData] at ha
    cases hf : h.find? a with
    | none => rw [hf] at ha; simp at ha
    | some n =>
      rw [hf] at ha
      cases hca : chainData h as with
      | none => rw [hca] at ha; simp at ha
      | some es =>
        rw [hca] at ha
        simp only [Option.map_some', Option.some.injEq] at ha
        subst ha
        have hih := ih es hca
        simp [chainData, hf, hih]

theorem elemsF_none (h : Heap T) (fuel : Nat) (l : ListV)
    (hl : l.head = none) : elemsF h fuel l = some [] := by
  obtain ⟨lh, lt, ls⟩ := l
  cases hl
  cases fuel <;> rfl

theorem elemsF_succ (h : Heap T) (fuel : Nat) (l : ListV) (a : Nat)
    (hl : l.head = some a) :
    elemsF h (fuel + 1) l =
      match h.find? a with
      | none => none
      | some n => (elemsF h fuel n.next).map (fun es => n.data :: es) := by
  obtain ⟨lh, lt, ls⟩ := l
  cases hl
  rfl

theorem elemsF_zero_some (h : Heap T) (l : ListV) (a : Nat)
    (hl : l.head = some a) : elemsF h 0 l = none := by
  obtain ⟨lh, lt, ls⟩ := l
  cases hl
  rfl

theorem elemsF_of_WFfrom (h : Heap T) (as : List Nat) (l : ListV)
    (fuel : Nat) (hw : WFfrom h as l = true) (hfuel : as.length ≤ fuel) :
    elemsF h fuel l = chainData h as := by
  induction as generalizing l fuel with
  | nil =>
    rw [WFfrom_nil_iff] at hw
    subst hw
    cases fuel <;> rfl
  | cons a as ih =>
    rw [WFfrom_cons_iff] at hw
    obtain ⟨h1, -, -, n, hf, hw'⟩ := hw
    cases fuel with
    | zero => simp at hfuel
    | succ fuel =>
      rw [elemsF_succ h fuel l a h1]
      simp only [hf, chainData]
      rw [ih n.next fuel hw' (by simpa using hfuel)]

theorem eqF_refl [DecidableEq T] (h : Heap T) (as : List Nat) (l : ListV)
    (fuel : Nat) (hw : WFfrom h as l = true) (hfuel : as.length ≤ fuel) :
    eqF h fuel l l = some true := by
  induction as generalizing l fuel with
  | nil =>
    rw [WFfrom_nil_iff] at hw
    subst hw
    cases fuel <;> rfl
  | cons a as ih =>
    rw [WFfrom_cons_iff] at hw
    obtain ⟨h1, -, -, n, hf, hw'⟩ := hw
    cases fuel with
    | zero => simp at hfuel
    | succ fuel =>
      obtain ⟨lh, lt, ls⟩ := l
      cases h1
      show (if ls ≠ ls then some false
        else match h.find? a, h.find? a with
          | some n, some m =>
            if n.data = m.data then eqF h fuel n.next m.next else some false
          | _, _ => none) = some true
      simp only [hf, if_neg (fun hh : ¬ ls = ls => hh rfl), if_pos rfl]
      exact ih n.next fuel hw' (by simpa using hfuel)

/-! ### Unfolding and small write lemmas -/

theorem concatList_succ (h : Heap T) (fuel : Nat) (a : Nat) (right : ListV) :
    concatList h (fuel + 1) a right =
      match h.find? a with
      | none => none
      | some n =>
        match n.next.head with
        | none => some (create h n.data right)
        | some b =>
          match concatList h fuel b right with
          | none => none
          | some rh => some (create rh.2 n.data rh.1) := rfl

theorem concatMut_succ (h : Heap T) (fuel : Nat) (a : Nat) (right : ListV) :
    concatMut h (fuel + 1) a right =
      match h.find? a with
      | none => none
      | some n =>
        match (match n.next.head with
               | some b => (concatMut h fuel b right).map (fun h1 => (some b, h1))
               | none => some (right.head, h)) with
        | none => none
        | some oh =>
          match oh.2.find? a with
          | none => none
          | some n1 =>
            match (match n1.next.tail with
                   | some t =>
                     match oh.2.find? t with
                     | none => none
                     | some _ => some (oh.2.writeNext t right)
                   | none => some oh.2) with
            | none => none
            | some h2 =>
              match h2.find? a with
              | none => none
              | some n2 =>
                some (h2.writeNext a
                  ⟨oh.1.orElse (fun _ => right.head), right.tail,
                    n2.next.size + right.size⟩) := rfl

theorem find?_writeNext_ne (h : Heap T) (a c : Nat) (v : ListV)
    (hc : ¬ c = a) : (h.writeNext a v).find? c = h.find? c := by
  rw [Heap.find?_writeNext, if_neg hc]

theorem find?_writeFlag_ne (h : Heap T) (a c : Nat) (bl : Bool)
    (hc : ¬ c = a) : (h.writeFlag a bl).find? c = h.find? c := by
  rw [Heap.find?_writeFlag, if_neg hc]

theorem writeNext_map_data (h : Heap T) (a c : Nat) (v : ListV) :
    ((h.writeNext a v).find? c).map (·.data) = (h.find? c).map (·.data) := by
  by_cases hc : c = a
  · subst hc
    rw [Heap.find?_writeNext, if_pos rfl, Option.map_map]
    rfl
  · rw [find?_writeNext_ne h a c v hc]

theorem writeNext_map_mutating (h : Heap T) (a c : Nat) (v : ListV) :
    ((h.writeNext a v).find? c).map (·.mutating) =
      (h.find? c).map (·.mutating) := by
  by_cases hc : c = a
  · subst hc
    rw [Heap.find?_writeNext, if_pos rfl, Option.map_map]
    rfl
  · rw [find?_writeNext_ne h a c v hc]

theorem writeFlag_map_data (h : Heap T) (a c : Nat) (bl : Bool) :
    ((h.writeFlag a bl).find? c).map (·.data) = (h.find? c).map (·.data) := by
  by_cases hc : c = a
  · subst hc
    rw [Heap.find?_writeFlag, if_pos rfl, Option.map_map]
    rfl
  · rw [find?_writeFlag_ne h a c bl hc]

theorem writeFlag_map_next (h : Heap T) (a c : Nat) (bl : Bool) :
    ((h.writeFlag a bl).find? c).map (·.next) = (h.find? c).map (·.next) := by
  by_cases hc : c = a
  · subst hc
    rw [Heap.find?_writeFlag, if_pos rfl, Option.map_map]
    rfl
  · rw [find?_writeFlag_ne h a c bl hc]

theorem getLast?_cons_exists (b : Nat) (as : List Nat) :
    ∃ t, (b :: as).getLast? = some t := by
  induction as generalizing b with
  | nil => exact ⟨b, rfl⟩
  | cons c cs ih => rw [List.getLast?_cons_cons]; exact ih c

theorem mem_of_getLast?' {α : Type} {l : List α} {t : α}
    (hl : l.getLast? = some t) : t ∈ l := by
  induction l with
  | nil => simp at hl
  | cons b bs ih =>
    cases bs with
    | nil =>
      simp only [List.getLast?_singleton, Option.some.injEq] at hl
      simp [hl]
    | cons c cs =>
      rw [List.getLast?_cons_cons] at hl
      exact List.mem_cons_of_mem _ (ih hl)

/-! ### Correctness of the in-place path -/

theorem concatMut_spec :
    ∀ (as : List Nat) (h : Heap T) (fuel : Nat) (a : Nat) (bs : List Nat)
      (n : Node T) (right : ListV),
      h.find? a = some n → WFfrom h as n.next = true →
      WFfrom h bs right = true →
      (a :: as).Nodup → (∀ c ∈ a :: as, c ∉ bs) → bs ≠ [] →
      as.length < fuel →
      ∃ h', concatMut h fuel a right = some h' ∧
        (∀ c, c ∉ a :: as → h'.find? c = h.find? c) ∧
        (∀ c, (h'.find? c).map (·.data) = (h.find? c).map (·.data)) ∧
        (∀ c, (h'.find? c).map (·.mutating) = (h.find? c).map (·.mutating)) ∧
        h'.fresh = h.fresh ∧ (Heap.WF h → Heap.WF h') ∧
        ∃ n', h'.find? a = some n' ∧ n'.data = n.data ∧
          n'.mutating = n.mutating ∧
          WFfrom h' (as ++ bs) n'.next = true := by
  intro as
  induction as with
  | nil =>
    intro h fuel a bs n right hf hwn hwb hnd hdisj hbs hfuel
    rw [WFfrom_nil_iff] at hwn
    cases fuel with
    | zero => omega
    | succ fuel =>
      rw [concatMut_succ]
      simp only [hf, hwn]
      refine ⟨h.writeNext a ⟨right.head.orElse (fun _ => right.head),
        right.tail, (0 : Nat) + right.size⟩, rfl, ?_, ?_, ?_, rfl, ?_, ?_⟩
      · intro c hc
        have hca : ¬ c = a := by simp at hc; exact hc
        exact find?_writeNext_ne h a c _ hca
      · intro c
        exact writeNext_map_data h a c _
      · intro c
        exact writeNext_map_mutating h a c _
      · exact fun hw => Heap.WF_writeNext h a _ hw
      · have hor : right.head.orElse (fun _ => right.head) = right.head := by
          cases right.head <;> rfl
        have hval : (⟨right.head.orElse (fun _ => right.head), right.tail,
            (0 : Nat) + right.size⟩ : ListV) = right := by
          rw [hor]
          show (⟨right.head, right.tail, 0 + right.size⟩ : ListV) = right
          rw [Nat.zero_add]
        refine ⟨⟨n.data, right, n.mutating⟩, ?_, rfl, rfl, ?_⟩
        · rw [Heap.find?_writeNext, if_pos rfl, hf]
          simp only [Option.map_some']
          rw [hval]
        · show WFfrom _ ([] ++ bs) right = true
          rw [List.nil_append]
          refine WFfrom_congr h _ bs right ?_ hwb
          intro c hc
          have hca : ¬ c = a := fun hh =>
            hdisj a (List.mem_cons_self a []) (hh ▸ hc)
          rw [find?_writeNext_ne h a c _ hca]
  | cons b as ih =>
    intro h fuel a bs n right hf hwn hwb hnd hdisj hbs hfuel
    have hnb := List.Nodup.of_cons hnd
    have hanb : a ∉ b :: as := (List.nodup_cons.mp hnd).1
    rw [WFfrom_cons_iff] at hwn
    obtain ⟨hnh, hnsz, hntl, m, hfb, hwm⟩ := hwn
    cases fuel with
    | zero => simp at hfuel
    | succ fuel =>
      obtain ⟨h1, hEq, hframe1, hdata1, hmut1, hfresh1, hWimp1, m', hfb', hmd,
        hmm, hwm'⟩ := ih h fuel b bs m right hfb hwm hwb hnb
          (fun c hc => hdisj c (List.mem_cons_of_mem a hc)) hbs
          (by simp at hfuel; omega)
      have hfa1 : h1.find? a = some n := by rw [hframe1 a hanb, hf]
      -- the node the cached tail designates already has `right` as its next
      obtain ⟨t, hlt⟩ := getLast?_cons_exists b as
      have htmem : t ∈ b :: as := mem_of_getLast?' hlt
      have hnt : ∃ nt, h1.find? t = some nt ∧ nt.next = right := by
        cases as with
        | nil =>
          simp only [List.getLast?_singleton, Option.some.injEq] at hlt
          subst hlt
          refine ⟨m', hfb', ?_⟩
          rw [WFfrom_fields h1 ([] ++ bs) m'.next hwm',
            WFfrom_fields h bs right hwb]
          simp
        | cons c cs =>
          rw [List.getLast?_cons_cons] at hlt
          obtain ⟨nt, hnt1, hnt2⟩ := WFfrom_last h1 bs t (c :: cs) m'.next
            hwm' hlt
          refine ⟨nt, hnt1, ?_⟩
          rw [WFfrom_fields h1 bs nt.next hnt2, WFfrom_fields h bs right hwb]
      obtain ⟨nt, hnt1, hntr⟩ := hnt
      have hfind2 : ∀ c, (h1.writeNext t right).find? c = h1.find? c := by
        intro c
        by_cases hc : c = t
        · subst hc
          rw [Heap.find?_writeNext, if_pos rfl, hnt1]
          simp only [Option.map_some']
          rw [← hntr]
        · exact find?_writeNext_ne h1 t c right hc
      have hfa2 : (h1.writeNext t right).find? a = some n := by
        rw [hfind2 a, hfa1]
      rw [concatMut_succ]
      simp only [hf, hnh, hEq, Option.map_some', hfa1, hntl, hlt, hnt1, hfa2]
      refine ⟨_, rfl, ?_, ?_, ?_, ?_, ?_, ?_⟩
      · intro c hc
        have hca : ¬ c = a := fun hh => hc (hh ▸ List.mem_cons_self a _)
        have hcb : c ∉ b :: as := fun hh => hc (List.mem_cons_of_mem a hh)
        have hct : ¬ c = t := fun hh => hcb (hh ▸ htmem)
        rw [find?_writeNext_ne _ a c _ hca, hfind2 c,
          hframe1 c hcb]
      · intro c
        rw [writeNext_map_data, ← hdata1 c]
        congr 1
        exact hfind2 c
      · intro c
        rw [writeNext_map_mutating, ← hmut1 c]
        congr 1
        exact hfind2 c
      · show ((h1.writeNext t right).writeNext a _).fresh = h.fresh
        rw [Heap.fresh_writeNext, Heap.fresh_writeNext, hfresh1]
      · intro hw
        exact Heap.WF_writeNext _ a _ (Heap.WF_writeNext h1 t right (hWimp1 hw))
      · refine ⟨⟨n.data, ⟨(some b).orElse (fun _ => right.head), right.tail,
          n.next.size + right.size⟩, n.mutating⟩, ?_, rfl, rfl, ?_⟩
        · rw [Heap.find?_writeNext, if_pos rfl, hfa2]
          rfl
        · have hbna : ¬ b = a := fun hh =>
            hanb (hh ▸ List.mem_cons_self b as)
          have hfb'' : ((h1.writeNext t right).writeNext a
              ⟨(some b).orElse (fun _ => right.head), right.tail,
                n.next.size + right.size⟩).find? b = some m' := by
            rw [find?_writeNext_ne _ a b _ hbna, hfind2 b, hfb']
          have hrt : right.tail = bs.getLast? := by
            rw [WFfrom_fields h bs right hwb]
          have hrsz : right.size = bs.length := by
            rw [WFfrom_fields h bs right hwb]
          rw [List.cons_append, WFfrom_cons_iff]
          refine ⟨rfl, ?_, ?_, m', hfb'', ?_⟩
          · show n.next.size + right.size = (as ++ bs).length + 1
            rw [hnsz, hrsz, List.length_append]
            omega
          · show right.tail = (b :: (as ++ bs)).getLast?
            rw [hrt, show b :: (as ++ bs) = (b :: as) ++ bs from rfl,
              List.getLast?_append_of_ne_nil (b :: as) hbs]
          · refine WFfrom_congr h1 _ (as ++ bs) m'.next ?_ hwm'
            intro c hc
            have hca : ¬ c = a := by
              intro hh
              subst hh
              rcases List.mem_append.mp hc with hc | hc
              · exact hanb (List.mem_cons_of_mem b hc)
              · exact hdisj c (List.mem_cons_self c _) hc
            rw [find?_writeNext_ne _ a c _ hca, hfind2 c]

theorem find?_last_eq_right (h1 : Heap T) (a0 t : Nat) (as0 bs : List Nat)
    (n' : Node T) (right : ListV)
    (hfa : h1.find? a0 = some n')
    (hw : WFfrom h1 (as0 ++ bs) n'.next = true)
    (hlt : (a0 :: as0).getLast? = some t)
    (hrf : right = ⟨bs.head?, bs.getLast?, bs.length⟩) :
    ∃ nt, h1.find? t = some nt ∧ nt.next = right := by
  cases as0 with
  | nil =>
    simp only [List.getLast?_singleton, Option.some.injEq] at hlt
    subst hlt
    refine ⟨n', hfa, ?_⟩
    rw [WFfrom_fields h1 ([] ++ bs) n'.next hw, hrf]
    simp
  | cons c cs =>
    rw [List.getLast?_cons_cons] at hlt
    obtain ⟨nt, h1', h2'⟩ := WFfrom_last h1 bs t (c :: cs) n'.next hw hlt
    exact ⟨nt, h1', by rw [WFfrom_fields h1 bs nt.next h2', hrf]⟩

theorem writeNext_self_noop (h1 : Heap T) (t : Nat) (nt : Node T)
    (right : ListV) (hnt : h1.find? t = some nt) (hntr : nt.next = right) :
    ∀ c, (h1.writeNext t right).find? c = h1.find? c := by
  intro c
  by_cases hc : c = t
  · subst hc
    rw [Heap.find?_writeNext, if_pos rfl, hnt]
    simp only [Option.map_some']
    rw [← hntr]
  · exact find?_writeNext_ne h1 t c right hc

theorem concatMutTop_spec (h : Heap T) (fuel : Nat) (self right : ListV)
    (as bs : List Nat)
    (hws : WFfrom h as self = true) (hwb : WFfrom h bs right = true)
    (hnd : as.Nodup) (hdisj : ∀ c ∈ as, c ∉ bs)
    (hane : as ≠ []) (hbs : bs ≠ []) (hfuel : as.length ≤ fuel) :
    ∃ h', concatMutTop h fuel self right =
        some (⟨self.head, right.tail, self.size + right.size⟩, h') ∧
      (∀ c, c ∉ as → h'.find? c = h.find? c) ∧
      (∀ c, (h'.find? c).map (·.data) = (h.find? c).map (·.data)) ∧
      (∀ c, (h'.find? c).map (·.mutating) = (h.find? c).map (·.mutating)) ∧
      h'.fresh = h.fresh ∧ (Heap.WF h → Heap.WF h') ∧
      WFfrom h' (as ++ bs)
        ⟨self.head, right.tail, self.size + right.size⟩ = true := by
  cases as with
  | nil => exact absurd rfl hane
  | cons a0 as0 =>
    rw [WFfrom_cons_iff] at hws
    obtain ⟨hsh, hssz, hstl, n0, hfa0, hwn0⟩ := hws
    obtain ⟨h1, hEq, hframe1, hdata1, hmut1, hfresh1, hWimp1, n', hfa0', hnd',
      hnm', hwn'⟩ := concatMut_spec as0 h fuel a0 bs n0 right hfa0 hwn0 hwb hnd
        hdisj hbs (by simp at hfuel; omega)
    obtain ⟨t, hlt⟩ := getLast?_cons_exists a0 as0
    have htmem : t ∈ a0 :: as0 := mem_of_getLast?' hlt
    have hrf : right = ⟨bs.head?, bs.getLast?, bs.length⟩ :=
      WFfrom_fields h bs right hwb
    obtain ⟨nt, hnt1, hntr⟩ :=
      find?_last_eq_right h1 a0 t as0 bs n' right hfa0' hwn' hlt hrf
    have hfind2 := writeNext_self_noop h1 t nt right hnt1 hntr
    have hstlt : self.tail = some t := by rw [hstl, hlt]
    simp only [concatMutTop, hsh, hEq, Option.map_some', hstlt, hnt1]
    refine ⟨h1.writeNext t right, ?_, ?_, ?_, ?_, ?_, ?_, ?_⟩
    · rfl
    · intro c hc
      have hct : ¬ c = t := fun hh => hc (hh ▸ htmem)
      rw [find?_writeNext_ne h1 t c right hct, hframe1 c hc]
    · intro c
      rw [writeNext_map_data, hdata1 c]
    · intro c
      rw [writeNext_map_mutating, hmut1 c]
    · rw [Heap.fresh_writeNext, hfresh1]
    · exact fun hw => Heap.WF_writeNext h1 t right (hWimp1 hw)
    · have hfb2 : (h1.writeNext t right).find? a0 = some n' := by
        rw [hfind2 a0, hfa0']
      rw [List.cons_append, WFfrom_cons_iff]
      refine ⟨rfl, ?_, ?_, n', hfb2, ?_⟩
      · show self.size + right.size = (as0 ++ bs).length + 1
        have : right.size = bs.length := by rw [hrf]
        rw [hssz, this, List.length_append]
        omega
      · show right.tail = (a0 :: (as0 ++ bs)).getLast?
        have : right.tail = bs.getLast? := by rw [hrf]
        rw [this, show a0 :: (as0 ++ bs) = (a0 :: as0) ++ bs from rfl,
          List.getLast?_append_of_ne_nil (a0 :: as0) hbs]
      · exact WFfrom_congr h1 _ (as0 ++ bs) n'.next
          (fun c hc => by rw [hfind2 c]) hwn'

/-! ### Correctness of the immutable copy path -/

theorem chainData_nil (h : Heap T) : chainData h [] = some [] := rfl

theorem chainData_cons (h : Heap T) (a : Nat) (as : List Nat) :
    chainData h (a :: as) =
      match h.find? a with
      | none => none
      | some n => (chainData h as).map (fun es => n.data :: es) := rfl

theorem concatList_spec :
    ∀ (as' : List Nat) (h : Heap T) (fuel : Nat) (a : Nat)
      (bs : List Nat) (l right : ListV),
      Heap.WF h → WFfrom h (a :: as') l = true → WFfrom h bs right = true →
      bs.Nodup → bs ≠ [] → as'.length < fuel →
      ∃ r h' ds, concatList h fuel a right = some (r, h') ∧
        Heap.WF h' ∧ h.fresh ≤ h'.fresh ∧
        (∀ c, c < h.fresh → h'.find? c = h.find? c) ∧
        WFfrom h' (ds ++ bs) r = true ∧ (ds ++ bs).Nodup ∧
        (∀ c ∈ ds, h.fresh ≤ c ∧ c < h'.fresh) ∧
        ds.length = as'.length + 1 ∧
        (∀ esA esB, chainData h (a :: as') = some esA →
          chainData h bs = some esB →
          chainData h' (ds ++ bs) = some (esA ++ esB)) := by
  intro as'
  induction as' with
  | nil =>
    intro h fuel a bs l right hW hwl hwb hbnd hbs hfuel
    rw [WFfrom_cons_iff] at hwl
    obtain ⟨-, -, -, n, hf, hwn⟩ := hwl
    rw [WFfrom_nil_iff] at hwn
    have hblt : ∀ c ∈ bs, c < h.fresh := by
      intro c hc
      obtain ⟨nc, hnc⟩ := WFfrom_dom h bs right hwb c hc
      exact Heap.find?_lt_fresh h c nc hW hnc
    have hrf : right = ⟨bs.head?, bs.getLast?, bs.length⟩ :=
      WFfrom_fields h bs right hwb
    obtain ⟨bt, hbt⟩ : ∃ bt, bs.getLast? = some bt := by
      cases bs with
      | nil => exact absurd rfl hbs
      | cons c cs => exact getLast?_cons_exists c cs
    have hrt : right.tail = some bt := by rw [hrf]; exact hbt
    cases fuel with
    | zero => omega
    | succ fuel =>
      rw [concatList_succ]
      simp only [hf, hwn]
      refine ⟨_, _, [h.fresh], rfl, Heap.WF_alloc h _ hW,
        Nat.le_succ _, ?_, ?_, ?_, ?_, ?_, ?_⟩
      · intro c hc
        have hne : ¬ c = h.fresh := by omega
        rw [Heap.find?_alloc, if_neg hne]
      · rw [List.cons_append, WFfrom_cons_iff]
        have hor : right.tail.orElse (fun _ => some h.fresh) = right.tail := by
          rw [hrt]; rfl
        refine ⟨rfl, ?_, ?_, ⟨n.data, right, false⟩, ?_, ?_⟩
        · show 1 + right.size = (List.nil ++ bs).length + 1
          have : right.size = bs.length := by rw [hrf]
          rw [this, List.nil_append]
          omega
        · show right.tail.orElse (fun _ => some h.fresh) =
            (h.fresh :: (List.nil ++ bs)).getLast?
          rw [hor, hrt, List.nil_append,
            show h.fresh :: bs = [h.fresh] ++ bs from rfl,
            List.getLast?_append_of_ne_nil [h.fresh] hbs, hbt]
        · rw [Heap.find?_alloc, if_pos rfl]
        · rw [List.nil_append]
          refine WFfrom_congr h _ bs right ?_ hwb
          intro c hc
          have hne : ¬ c = h.fresh := by have := hblt c hc; omega
          rw [Heap.find?_alloc, if_neg hne]
      · rw [List.cons_append, List.nil_append, List.nodup_cons]
        exact ⟨fun hc => by have := hblt _ hc; omega, hbnd⟩
      · intro c hc
        rcases List.mem_singleton.mp hc with rfl
        exact ⟨Nat.le_refl _, by rw [Heap.fresh_alloc]; omega⟩
      · rfl
      · intro esA esB hA hB
        rw [chainData_cons, hf] at hA
        simp only [chainData_nil, Option.map_some', Option.some.injEq] at hA
        subst hA
        have hB' : chainData (h.alloc ⟨n.data, right, false⟩).2 bs = some esB := by
          rw [chainData_congr h _ bs ?_]
          · exact hB
          · intro c hc
            have hne : ¬ c = h.fresh := by have := hblt c hc; omega
            rw [Heap.find?_alloc, if_neg hne]
        rw [List.cons_append, List.nil_append]
        simp only [chainData, Heap.find?_alloc, if_pos rfl, hB']
        rfl
  | cons b as'' ih =>
    intro h fuel a bs l right hW hwl hwb hbnd hbs hfuel
    rw [WFfrom_cons_iff] at hwl
    obtain ⟨-, -, -, n, hf, hwn⟩ := hwl
    have hnh : n.next.head = some b := by
      rw [WFfrom_fields h (b :: as'') n.next hwn]
      simp
    cases fuel with
    | zero => simp at hfuel
    | succ fuel =>
      obtain ⟨r', h1, ds', hEq, hW1, hfresh1, hframe1, hwr', hnd', hdsb',
        hdsl', hcd'⟩ := ih h fuel b bs n.next right hW hwn hwb hbnd hbs
          (by simp at hfuel; omega)
      rw [concatList_succ]
      simp only [hf, hnh, hEq]
      have hdb' : ∀ c ∈ ds' ++ bs, c < h1.fresh := by
        intro c hc
        rcases List.mem_append.mp hc with hc | hc
        · exact (hdsb' c hc).2
        · obtain ⟨nc, hnc⟩ := WFfrom_dom h bs right hwb c hc
          have := Heap.find?_lt_fresh h c nc hW hnc
          omega
      have hrt' : r'.tail = (ds' ++ bs).getLast? := by
        rw [WFfrom_fields h1 (ds' ++ bs) r' hwr']
      obtain ⟨bt, hbt⟩ : ∃ bt, bs.getLast? = some bt := by
        cases bs with
        | nil => exact absurd rfl hbs
        | cons c cs => exact getLast?_cons_exists c cs
      have hdbt : (ds' ++ bs).getLast? = some bt := by
        rw [List.getLast?_append_of_ne_nil ds' hbs, hbt]
      refine ⟨_, _, h1.fresh :: ds', rfl, Heap.WF_alloc h1 _ hW1, ?_,
        ?_, ?_, ?_, ?_, ?_, ?_⟩
      · rw [Heap.fresh_alloc]; omega
      · intro c hc
        have hne : ¬ c = h1.fresh := by omega
        rw [Heap.find?_alloc, if_neg hne, hframe1 c hc]
      · rw [List.cons_append, WFfrom_cons_iff]
        have hor : r'.tail.orElse (fun _ => some h1.fresh) = r'.tail := by
          rw [hrt', hdbt]; rfl
        refine ⟨rfl, ?_, ?_, ⟨n.data, r', false⟩, ?_, ?_⟩
        · show 1 + r'.size = (ds' ++ bs).length + 1
          have : r'.size = (ds' ++ bs).length := by
            rw [WFfrom_fields h1 (ds' ++ bs) r' hwr']
          omega
        · show r'.tail.orElse (fun _ => some h1.fresh) =
            (h1.fresh :: (ds' ++ bs)).getLast?
          rw [hor, hrt', hdbt,
            show h1.fresh :: (ds' ++ bs) = [h1.fresh] ++ (ds' ++ bs) from rfl,
            List.getLast?_append_of_ne_nil [h1.fresh]
              (by intro hh; rw [hh] at hdbt; simp at hdbt), hdbt]
        · rw [Heap.find?_alloc, if_pos rfl]
        · refine WFfrom_congr h1 _ (ds' ++ bs) r' ?_ hwr'
          intro c hc
          have hne : ¬ c = h1.fresh := by have := hdb' c hc; omega
          rw [Heap.find?_alloc, if_neg hne]
      · rw [List.cons_append, List.nodup_cons]
        exact ⟨fun hc => by have := hdb' _ hc; omega, hnd'⟩
      · intro c hc
        rcases List.mem_cons.mp hc with rfl | hc
        · exact ⟨hfresh1, by rw [Heap.fresh_alloc]; omega⟩
        · obtain ⟨h1c, h2c⟩ := hdsb' c hc
          exact ⟨h1c, by rw [Heap.fresh_alloc]; omega⟩
      · simp [hdsl']
      · intro esA esB hA hB
        rw [chainData_cons, hf] at hA
        simp only [] at hA
        cases hA' : chainData h (b :: as'') with
        | none => rw [hA'] at hA; simp at hA
        | some esA' =>
          rw [hA'] at hA
          simp only [Option.map_some', Option.some.injEq] at hA
          subst hA
          have hmid := hcd' esA' esB hA' hB
          have hmid2 : chainData (h1.alloc ⟨n.data, r', false⟩).2 (ds' ++ bs) =
              some (esA' ++ esB) := by
            rw [chainData_congr h1 _ (ds' ++ bs) ?_]
            · exact hmid
            · intro c hc
              have hne : ¬ c = h1.fresh := by have := hdb' c hc; omega
              rw [Heap.find?_alloc, if_neg hne]
          rw [List.cons_append]
          simp only [chainData, Heap.find?_alloc, if_pos rfl, hmid2]
          rfl

/-! ### The combined specification of `concat` under the representation
invariant, covering every path the decision procedure can take -/

theorem concat_spec (h : Heap T) (others : List ListV) (fuel : Nat)
    (self right : ListV) (as bs : List Nat)
    (hW : Heap.WF h) (hws : WFfrom h as self = true)
    (hwb : WFfrom h bs right = true)
    (hand : as.Nodup) (hbnd : bs.Nodup)
    (hdisj : ∀ c ∈ as, c ∉ bs) (hfuel : as.length < fuel) :
    ∃ r h' cs, concat h others fuel self right = some (r, h') ∧
      Heap.WF h' ∧ h.fresh ≤ h'.fresh ∧ cs.Nodup ∧
      WFfrom h' cs r = true ∧
      r.size = self.size + right.size ∧
      (∀ c, c < h.fresh → c ∉ as → h'.find? c = h.find? c) ∧
      (∀ c ∈ cs, c ∈ as ∨ c ∈ bs ∨ h.fresh ≤ c) ∧
      (∀ esA esB, chainData h as = some esA → chainData h bs = some esB →
        chainData h' cs = some (esA ++ esB)) := by
  cases as with
  | nil =>
    rw [WFfrom_nil_iff] at hws
    subst hws
    refine ⟨right, h, bs, rfl, hW, Nat.le_refl _, hbnd, hwb, by simp,
      fun c _ _ => rfl, fun c hc => Or.inr (Or.inl hc), ?_⟩
    intro esA esB hA hB
    rw [chainData_nil, Option.some.injEq] at hA
    subst hA
    simpa using hB
  | cons a0 as0 =>
    have hsh : self.head = some a0 := by
      rw [WFfrom_fields h (a0 :: as0) self hws]; simp
    by_cases hrz : right.size = 0
    · have hbsnil : bs = [] := by
        have : right.size = bs.length := by
          rw [WFfrom_fields h bs right hwb]
        rw [this] at hrz
        exact List.length_eq_zero.mp hrz
      subst hbsnil
      refine ⟨self, h, a0 :: as0, ?_, hW, Nat.le_refl _, hand,
        hws, by omega, fun c _ _ => rfl,
        fun c hc => Or.inl hc, ?_⟩
      · show concat h others fuel self right = some (self, h)
        obtain ⟨sh, st, ss⟩ := self
        cases hsh
        show (if right.size = 0 then some (⟨some a0, st, ss⟩, h)
          else if strongCount h (⟨some a0, st, ss⟩ :: others) a0 ≠ 1 then
            concatList h fuel a0 right
          else _) = some (⟨some a0, st, ss⟩, h)
        rw [if_pos hrz]
      · intro esA esB hA hB
        rw [chainData_nil, Option.some.injEq] at hB
        subst hB
        simpa using hA
    · have hbs : bs ≠ [] := by
        intro hh
        subst hh
        have : right.size = List.length ([] : List Nat) := by
          rw [WFfrom_fields h ([] : List Nat) right hwb]
        simp at this
        exact hrz this
      obtain ⟨n0, hf0⟩ : ∃ n0, h.find? a0 = some n0 := by
        have hws2 := hws
        rw [WFfrom_cons_iff] at hws2
        obtain ⟨-, -, -, n0, hf0, -⟩ := hws2
        exact ⟨n0, hf0⟩
      have himmut :
          ∀ hcl : Option (ListV × Heap T),
            hcl = concatList h fuel a0 right →
          ∃ r h' cs, hcl = some (r, h') ∧
            Heap.WF h' ∧ h.fresh ≤ h'.fresh ∧ cs.Nodup ∧
            WFfrom h' cs r = true ∧
            r.size = self.size + right.size ∧
            (∀ c, c < h.fresh → c ∉ a0 :: as0 → h'.find? c = h.find? c) ∧
            (∀ c ∈ cs, c ∈ a0 :: as0 ∨ c ∈ bs ∨ h.fresh ≤ c) ∧
            (∀ esA esB, chainData h (a0 :: as0) = some esA →
              chainData h bs = some esB →
              chainData h' cs = some (esA ++ esB)) := by
        intro hcl hcleq
        obtain ⟨r, h', ds, hEq, hW', hfr', hfr2', hwr', hnd', hds', hdsl',
          hcd'⟩ := concatList_spec as0 h fuel a0 bs self right hW hws hwb
            hbnd hbs (by simp at hfuel; omega)
        refine ⟨r, h', ds ++ bs, by rw [hcleq, hEq], hW', hfr', hnd', hwr',
          ?_, fun c hc _ => hfr2' c hc, ?_, hcd'⟩
        · have h1 : r.size = (ds ++ bs).length := by
            rw [WFfrom_fields h' (ds ++ bs) r hwr']
          have h2 : self.size = as0.length + 1 := by
            rw [WFfrom_fields h (a0 :: as0) self hws]; simp
          have h3 : right.size = bs.length := by
            rw [WFfrom_fields h bs right hwb]
          have h4 : (ds ++ bs).length = ds.length + bs.length :=
            List.length_append ds bs
          omega
        · intro c hc
          rcases List.mem_append.mp hc with hc | hc
          · exact Or.inr (Or.inr (hds' c hc).1)
          · exact Or.inr (Or.inl hc)
      by_cases hsc : strongCount h (self :: others) a0 ≠ 1
      · obtain ⟨r, h', cs, hEq, rest⟩ :=
          himmut (concatList h fuel a0 right) rfl
        refine ⟨r, h', cs, ?_, rest⟩
        obtain ⟨sh, st, ss⟩ := self
        cases hsh
        show (if right.size = 0 then _
          else if strongCount h (⟨some a0, st, ss⟩ :: others) a0 ≠ 1 then
            concatList h fuel a0 right
          else _) = some (r, h')
        rw [if_neg hrz, if_pos hsc]
        exact hEq
      · by_cases hm : n0.mutating = true
        · obtain ⟨r, h', cs, hEq, rest⟩ :=
            himmut (concatList h fuel a0 right) rfl
          refine ⟨r, h', cs, ?_, rest⟩
          obtain ⟨sh, st, ss⟩ := self
          cases hsh
          show (if right.size = 0 then _
            else if strongCount h (⟨some a0, st, ss⟩ :: others) a0 ≠ 1 then
              concatList h fuel a0 right
            else match h.find? a0 with
              | none => none
              | some n =>
                if n.mutating then concatList h fuel a0 right
                else
                  match concatMutTop (h.writeFlag a0 true) fuel
                      ⟨some a0, st, ss⟩ right with
                  | none => none
                  | some rh =>
                    some (rh.1, rh.2.writeFlag a0 false)) = some (r, h')
          rw [if_neg hrz, if_neg hsc]
          simp only [hf0, if_pos hm]
          exact hEq
        · -- the in-place path
          have hnext0 : ∀ c, ((h.writeFlag a0 true).find? c).map (·.next) =
              (h.find? c).map (·.next) := fun c => writeFlag_map_next h a0 c true
          have hdata0 : ∀ c, ((h.writeFlag a0 true).find? c).map (·.data) =
              (h.find? c).map (·.data) := fun c => writeFlag_map_data h a0 c true
          have hws0 : WFfrom (h.writeFlag a0 true) (a0 :: as0) self = true :=
            WFfrom_congr h _ (a0 :: as0) self (fun c _ => hnext0 c) hws
          have hwb0 : WFfrom (h.writeFlag a0 true) bs right = true :=
            WFfrom_congr h _ bs right (fun c _ => hnext0 c) hwb
          obtain ⟨h1, hEq, hframe1, hdata1, hmut1, hfresh1, hWimp1, hwr1⟩ :=
            concatMutTop_spec (h.writeFlag a0 true) fuel self right
              (a0 :: as0) bs hws0 hwb0 hand hdisj (by simp) hbs
              (by omega)
          refine ⟨⟨self.head, right.tail, self.size + right.size⟩,
            h1.writeFlag a0 false, (a0 :: as0) ++ bs, ?_, ?_, ?_, ?_, ?_,
            rfl, ?_, ?_, ?_⟩
          · obtain ⟨sh, st, ss⟩ := self
            cases hsh
            show (if right.size = 0 then _
              else if strongCount h (⟨some a0, st, ss⟩ :: others) a0 ≠ 1 then
                concatList h fuel a0 right
              else match h.find? a0 with
                | none => none
                | some n =>
                  if n.mutating then concatList h fuel a0 right
                  else
                    match concatMutTop (h.writeFlag a0 true) fuel
                        ⟨some a0, st, ss⟩ right with
                    | none => none
                    | some rh =>
                      some (rh.1, rh.2.writeFlag a0 false)) = _
            rw [if_neg hrz, if_neg hsc]
            simp only [hf0, if_neg hm, hEq]
          · exact Heap.WF_writeFlag h1 a0 false
              (hWimp1 (Heap.WF_writeFlag h a0 true hW))
          · rw [Heap.fresh_writeFlag, hfresh1, Heap.fresh_writeFlag]
          · exact List.Nodup.append hand hbnd hdisj
          · refine WFfrom_congr h1 _ ((a0 :: as0) ++ bs) _
              (fun c _ => writeFlag_map_next h1 a0 c false) hwr1
          · intro c hclt hcas
            have hca0 : ¬ c = a0 := fun hh =>
              hcas (hh ▸ List.mem_cons_self a0 as0)
            rw [find?_writeFlag_ne h1 a0 c false hca0, hframe1 c hcas,
              find?_writeFlag_ne h a0 c true hca0]
          · intro c hc
            rcases List.mem_append.mp hc with hc | hc
            · exact Or.inl hc
            · exact Or.inr (Or.inl hc)
          · intro esA esB hA hB
            have hA0 : chainData (h.writeFlag a0 true) (a0 :: as0) = some esA := by
              rw [chainData_congr h _ _ (fun c _ => hdata0 c)]
              exact hA
            have hB0 : chainData (h.writeFlag a0 true) bs = some esB := by
              rw [chainData_congr h _ _ (fun c _ => hdata0 c)]
              exact hB
            have hA1 : chainData h1 ((a0 :: as0) ++ bs) = some (esA ++ esB) := by
              rw [chainData_congr (h.writeFlag a0 true) h1 _
                (fun c _ => hdata1 c)]
              exact chainData_append_of _ _ _ _ _ hA0 hB0
            rw [chainData_congr h1 _ _
              (fun c _ => writeFlag_map_data h1 a0 c false)]
            exact hA1

/-! ### Indexing under the representation invariant -/

theorem nodeIndex_eq (h : Heap T) (i a : Nat) :
    nodeIndex h i a =
      match h.find? a with
      | none => .fault
      | some n =>
        match i with
        | 0 => .ok n.data
        | j + 1 =>
          if n.next.size > 0 then
            match n.next.head with
            | some b => nodeIndex h j b
            | none => .fault
          else .fault := by
  cases i <;> rfl

theorem nodeIndex_ne_oob (h : Heap T) :
    ∀ (i a nn mm : Nat), nodeIndex h i a ≠ .oob nn mm := by
  intro i
  induction i with
  | zero =>
    intro a nn mm
    rw [nodeIndex_eq]
    cases h.find? a <;> simp
  | succ j ih =>
    intro a nn mm
    rw [nodeIndex_eq]
    cases hf : h.find? a with
    | none => simp
    | some n =>
      simp only []
      by_cases hsz : n.next.size > 0
      · rw [if_pos hsz]
        cases hnh : n.next.head with
        | none => simp
        | some b => exact ih b nn mm
      · rw [if_neg hsz]
        simp

theorem nodeIndex_of_WFfrom :
    ∀ (as : List Nat) (h : Heap T) (a : Nat) (l : ListV) (i : Nat)
      (es : List T),
      WFfrom h (a :: as) l = true → chainData h (a :: as) = some es →
      i < as.length + 1 →
      ∃ t, nodeIndex h i a = .ok t ∧ es.get? i = some t := by
  intro as
  induction as with
  | nil =>
    intro h a l i es hw hcd hi
    rw [WFfrom_cons_iff] at hw
    obtain ⟨-, -, -, n, hf, -⟩ := hw
    rw [chainData_cons, hf] at hcd
    simp only [chainData_nil, Option.map_some', Option.some.injEq] at hcd
    subst hcd
    have hi0 : i = 0 := by simpa using hi
    subst hi0
    rw [nodeIndex_eq]
    simp only [hf]
    exact ⟨n.data, rfl, rfl⟩
  | cons b as' ih =>
    intro h a l i es hw hcd hi
    rw [WFfrom_cons_iff] at hw
    obtain ⟨-, -, -, n, hf, hw'⟩ := hw
    rw [chainData_cons, hf] at hcd
    cases hcd' : chainData h (b :: as') with
    | none => rw [hcd'] at hcd; simp at hcd
    | some es' =>
      rw [hcd'] at hcd
      simp only [Option.map_some', Option.some.injEq] at hcd
      subst hcd
      have hfields : n.next =
          ⟨(b :: as').head?, (b :: as').getLast?, (b :: as').length⟩ :=
        WFfrom_fields h (b :: as') n.next hw'
      cases i with
      | zero =>
        rw [nodeIndex_eq]
        simp only [hf]
        exact ⟨n.data, rfl, rfl⟩
      | succ j =>
        rw [nodeIndex_eq]
        simp only [hf]
        have hsz : n.next.size > 0 := by rw [hfields]; simp
        have hnh : n.next.head = some b := by rw [hfields]; simp
        rw [if_pos hsz, hnh]
        obtain ⟨t, ht1, ht2⟩ := ih h b n.next j es' hw' hcd'
          (by simp at hi; omega)
        exact ⟨t, ht1, by simpa using ht2⟩

/-! ### Algebraic properties of `concat` -/

theorem WFfrom_lt_fresh (h : Heap T) (as : List Nat) (l : ListV)
    (hW : Heap.WF h) (hw : WFfrom h as l = true) :
    ∀ c ∈ as, c < h.fresh := by
  intro c hc
  obtain ⟨nc, hnc⟩ := WFfrom_dom h as l hw c hc
  exact Heap.find?_lt_fresh h c nc hW hnc

theorem chainData_congr_of_find? (h h' : Heap T) (as : List Nat)
    (hsame : ∀ c ∈ as, h'.find? c = h.find? c) :
    chainData h' as = chainData h as :=
  chainData_congr h h' as (fun c hc => by rw [hsame c hc])

theorem WFfrom_congr_of_find? (h h' : Heap T) (as : List Nat) (l : ListV)
    (hsame : ∀ c ∈ as, h'.find? c = h.find? c)
    (hw : WFfrom h as l = true) : WFfrom h' as l = true :=
  WFfrom_congr h h' as l (fun c hc => by rw [hsame c hc]) hw

/-- Conditional associativity: from a well-formed heap holding three
pairwise-disjoint lists that each satisfy the representation invariant
`WFfrom` (accurate tail, accurate size, no shared nodes), both association
orders of `concat` succeed and produce lists carrying the same element
sequence `esA ++ esB ++ esC` and equal sizes, whatever live-root sets the
calls observe, and the empty list is a two-sided identity.  The hypotheses
exclude exactly the configurations the public constructors can reach —
stale cached tails (`prepend` on empty) and shared suffixes (`prepend` on
a live list) — under which `concat_c7_assoc_failing` below shows the
element-wise law fails. -/
theorem concat_assoc_of_disjoint_reprs [DecidableEq T] (h : Heap T)
    (A B C : ListV) (as bs cs : List Nat)
    (o1 o2 o3 o4 oi : List ListV) (fuel : Nat)
    (hW : Heap.WF h)
    (hA : WFfrom h as A = true) (hB : WFfrom h bs B = true)
    (hC : WFfrom h cs C = true)
    (nA : as.Nodup) (nB : bs.Nodup) (nC : cs.Nodup)
    (dAB : ∀ x ∈ as, x ∉ bs) (dAC : ∀ x ∈ as, x ∉ cs)
    (dBC : ∀ x ∈ bs, x ∉ cs)
    (hfuel : as.length + bs.length + cs.length < fuel) :
    (concat h oi fuel empty A = some (A, h)) ∧
    (concat h oi fuel A empty = some (A, h)) ∧
    (eqF h fuel A A = some true) ∧
    (∃ r1 h1 rL hL r2 h2 rR hR esA esB esC,
      concat h o1 fuel A B = some (r1, h1) ∧
      concat h1 o2 fuel r1 C = some (rL, hL) ∧
      concat h o3 fuel B C = some (r2, h2) ∧
      concat h2 o4 fuel A r2 = some (rR, hR) ∧
      elemsF hL rL.size rL = some (esA ++ esB ++ esC) ∧
      elemsF hR rR.size rR = some (esA ++ (esB ++ esC)) ∧
      esA ++ esB ++ esC = esA ++ (esB ++ esC) ∧
      rL.size = rR.size ∧
      chainData h as = some esA ∧ chainData h bs = some esB ∧
      chainData h cs = some esC) := by
  have hAsz : A.size = as.length := by rw [WFfrom_fields h as A hA]
  have hBsz : B.size = bs.length := by rw [WFfrom_fields h bs B hB]
  have hCsz : C.size = cs.length := by rw [WFfrom_fields h cs C hC]
  have hAlt := WFfrom_lt_fresh h as A hW hA
  have hBlt := WFfrom_lt_fresh h bs B hW hB
  have hClt := WFfrom_lt_fresh h cs C hW hC
  refine ⟨rfl, ?_, eqF_refl h as A fuel hA (by omega), ?_⟩
  · -- concat A empty = A
    cases hcas : as with
    | nil =>
      rw [hcas] at hA
      rw [WFfrom_nil_iff] at hA
      rw [hA]
      rfl
    | cons a0 as0 =>
      have hsh : A.head = some a0 := by
        rw [hcas] at hA
        rw [WFfrom_fields h (a0 :: as0) A hA]
        simp
      obtain ⟨sh, st, ss⟩ := A
      cases hsh
      show (if empty.size = 0 then some ((⟨some a0, st, ss⟩ : ListV), h)
        else if strongCount h (⟨some a0, st, ss⟩ :: oi) a0 ≠ 1 then
          concatList h fuel a0 empty
        else match h.find? a0 with
          | none => none
          | some n =>
            if n.mutating then concatList h fuel a0 empty
            else
              match concatMutTop (h.writeFlag a0 true) fuel
                  ⟨some a0, st, ss⟩ empty with
              | none => none
              | some rh => some (rh.1, rh.2.writeFlag a0 false)) =
        some ((⟨some a0, st, ss⟩ : ListV), h)
      rw [if_pos (show empty.size = 0 from rfl)]
  · -- associativity
    obtain ⟨esA, hesA, heAl⟩ := chainData_of_WFfrom h as A hA
    obtain ⟨esB, hesB, heBl⟩ := chainData_of_WFfrom h bs B hB
    obtain ⟨esC, hesC, heCl⟩ := chainData_of_WFfrom h cs C hC
    -- left association
    obtain ⟨r1, h1, cs1, hEq1, hW1, hfr1, nd1, hwr1, hsz1, hframe1, hmem1,
      hchain1⟩ := concat_spec h o1 fuel A B as bs hW hA hB nA nB dAB
        (by omega)
    have hCkeep : ∀ c ∈ cs, h1.find? c = h.find? c := by
      intro c hc
      refine hframe1 c (hClt c hc) ?_
      intro hca
      exact dAC c hca hc
    have hC1 : WFfrom h1 cs C = true :=
      WFfrom_congr_of_find? h h1 cs C hCkeep hC
    have hesC1 : chainData h1 cs = some esC := by
      rw [chainData_congr_of_find? h h1 cs hCkeep, hesC]
    have hcs1C : ∀ x ∈ cs1, x ∉ cs := by
      intro x hx hxc
      rcases hmem1 x hx with hx' | hx' | hx'
      · exact dAC x hx' hxc
      · exact dBC x hx' hxc
      · exact absurd (hClt x hxc) (by omega)
    have hcs1len : cs1.length = as.length + bs.length := by
      have e1 : r1.size = cs1.length := by
        rw [WFfrom_fields h1 cs1 r1 hwr1]
      omega
    obtain ⟨rL, hL, csL, hEqL, hWL, hfrL, ndL, hwrL, hszL, hframeL, hmemL,
      hchainL⟩ := concat_spec h1 o2 fuel r1 C cs1 cs hW1 hwr1 hC1 nd1 nC
        hcs1C (by omega)
    have hesAB : chainData h1 cs1 = some (esA ++ esB) :=
      hchain1 esA esB hesA hesB
    have hesL : chainData hL csL = some ((esA ++ esB) ++ esC) :=
      hchainL (esA ++ esB) esC hesAB hesC1
    -- right association
    obtain ⟨r2, h2, cs2, hEq2, hW2, hfr2, nd2, hwr2, hsz2, hframe2, hmem2,
      hchain2⟩ := concat_spec h o3 fuel B C bs cs hW hB hC nB nC dBC
        (by omega)
    have hAkeep : ∀ c ∈ as, h2.find? c = h.find? c := by
      intro c hc
      refine hframe2 c (hAlt c hc) ?_
      intro hcb
      exact dAB c hc hcb
    have hA2 : WFfrom h2 as A = true :=
      WFfrom_congr_of_find? h h2 as A hAkeep hA
    have hesA2 : chainData h2 as = some esA := by
      rw [chainData_congr_of_find? h h2 as hAkeep, hesA]
    have hascs2 : ∀ x ∈ as, x ∉ cs2 := by
      intro x hx hxc
      rcases hmem2 x hxc with hx' | hx' | hx'
      · exact dAB x hx hx'
      · exact dAC x hx hx'
      · exact absurd (hAlt x hx) (by omega)
    obtain ⟨rR, hR, csR, hEqR, hWR, hfrR, ndR, hwrR, hszR, hframeR, hmemR,
      hchainR⟩ := concat_spec h2 o4 fuel A r2 as cs2 hW2 hA2 hwr2 nA nd2
        hascs2 (by omega)
    have hesBC : chainData h2 cs2 = some (esB ++ esC) :=
      hchain2 esB esC hesB hesC
    have hesR : chainData hR csR = some (esA ++ (esB ++ esC)) :=
      hchainR esA (esB ++ esC) hesA2 hesBC
    refine ⟨r1, h1, rL, hL, r2, h2, rR, hR, esA, esB, esC,
      hEq1, hEqL, hEq2, hEqR, ?_, ?_, List.append_assoc esA esB esC, ?_,
      hesA, hesB, hesC⟩
    · rw [elemsF_of_WFfrom hL csL rL rL.size hwrL
        (by rw [WFfrom_fields hL csL rL hwrL])]
      exact hesL
    · rw [elemsF_of_WFfrom hR csR rR rR.size hwrR
        (by rw [WFfrom_fields hR csR rR hwrR])]
      exact hesR
    · have e2 : r2.size = B.size + C.size := hsz2
      omega

/-- C8: `list[i]` raises the out-of-bounds panic — whose payload carries
both the current length and the requested index — exactly when
`i ≥ len()` (hence `index(0)` on an empty list fails), and for
`0 ≤ i < len()` on a well-formed list it returns exactly the `i`-th
element produced by iterating the list.  `nodeIndex` never produces the
out-of-bounds outcome, so the bounds panic originates only in
`Index for List`. -/
theorem index_c8_bounds (h : Heap T) (l : ListV) (as : List Nat) (i : Nat)
    (hw : WFfrom h as l = true) :
    ((∃ nn mm, index h l i = IdxResult.oob nn mm) ↔ l.size ≤ i) ∧
    (l.size ≤ i → index h l i = IdxResult.oob l.size i) ∧
    (i < l.size → ∃ t es, index h l i = IdxResult.ok t ∧
      elemsF h l.size l = some es ∧ es.get? i = some t) := by
  have hoob : l.size ≤ i → index h l i = IdxResult.oob l.size i := by
    intro hle
    simp only [index, if_pos hle]
  have hok : i < l.size → ∃ t es, index h l i = IdxResult.ok t ∧
      elemsF h l.size l = some es ∧ es.get? i = some t := by
    intro hlt
    have hfields := WFfrom_fields h as l hw
    cases has : as with
    | nil =>
      rw [has] at hfields
      rw [hfields] at hlt
      simp at hlt
    | cons a as' =>
      rw [has] at hfields hw
      obtain ⟨es, hcd, hlen⟩ := chainData_of_WFfrom h (a :: as') l hw
      have hszlen : l.size = as'.length + 1 := by rw [hfields]; simp
      obtain ⟨t, ht1, ht2⟩ := nodeIndex_of_WFfrom as' h a l i es hw hcd
        (by omega)
      refine ⟨t, es, ?_, ?_, ht2⟩
      · have hhd : l.head = some a := by rw [hfields]; simp
        simp only [index, if_neg (by omega : ¬ l.size ≤ i), hhd]
        exact ht1
      · rw [elemsF_of_WFfrom h (a :: as') l l.size hw (by simp [hszlen])]
        exact hcd
  refine ⟨⟨?_, fun hle => ⟨l.size, i, hoob hle⟩⟩, hoob, hok⟩
  rintro ⟨nn, mm, hoobeq⟩
  by_contra hcon
  push_neg at hcon
  obtain ⟨t, es, ht1, -, -⟩ := hok hcon
  rw [ht1] at hoobeq
  exact absurd hoobeq (by simp)

def hw8 : Heap Nat :=
  ⟨[(0, ⟨2, ⟨none, none, 0⟩, false⟩), (1, ⟨1, ⟨some 0, some 0, 1⟩, false⟩)],
    2⟩

def lw8 : ListV := ⟨some 1, some 0, 2⟩

/-- Witness for C8 at the concrete list `[1, 2]` and the empty list:
`index 5` is out-of-bounds reporting length 2 and index 5, `index 1`
returns the element the iterator yields at offset 1, and `index 0` of the
empty list is out-of-bounds reporting length 0 and index 0. -/
theorem index_c8_bounds_witness :
    WFfrom hw8 [1, 0] lw8 = true ∧
    index hw8 lw8 5 = IdxResult.oob 2 5 ∧
    (∃ t es, index hw8 lw8 1 = IdxResult.ok t ∧
      elemsF hw8 lw8.size lw8 = some es ∧ es.get? 1 = some t) ∧
    index (⟨[], 0⟩ : Heap Nat) empty 0 = IdxResult.oob 0 0 :=
  ⟨rfl,
   (index_c8_bounds hw8 lw8 [1, 0] 5 rfl).2.1 (by decide),
   (index_c8_bounds hw8 lw8 [1, 0] 1 rfl).2.2 (by decide),
   (index_c8_bounds (⟨[], 0⟩ : Heap Nat) empty [] 0 rfl).2.1 (by decide)⟩

def h7 : Heap Nat :=
  ⟨[(0, ⟨10, ⟨none, none, 0⟩, false⟩), (1, ⟨20, ⟨none, none, 0⟩, false⟩),
    (2, ⟨30, ⟨none, none, 0⟩, false⟩)], 3⟩

def lA7 : ListV := ⟨some 0, some 0, 1⟩

def lB7 : ListV := ⟨some 1, some 1, 1⟩

def lC7 : ListV := ⟨some 2, some 2, 1⟩

/-- Instance of the conditional associativity lemma at three concrete
disjoint singleton lists `[10]`, `[20]`, `[30]` in a concrete heap. -/
theorem concat_assoc_of_disjoint_reprs_example :
    (concat h7 [] 10 empty lA7 = some (lA7, h7)) ∧
    (concat h7 [] 10 lA7 empty = some (lA7, h7)) ∧
    (eqF h7 10 lA7 lA7 = some true) ∧
    (∃ r1 h1 rL hL r2 h2 rR hR esA esB esC,
      concat h7 [] 10 lA7 lB7 = some (r1, h1) ∧
      concat h1 [] 10 r1 lC7 = some (rL, hL) ∧
      concat h7 [] 10 lB7 lC7 = some (r2, h2) ∧
      concat h2 [] 10 lA7 r2 = some (rR, hR) ∧
      elemsF hL rL.size rL = some (esA ++ esB ++ esC) ∧
      elemsF hR rR.size rR = some (esA ++ (esB ++ esC)) ∧
      esA ++ esB ++ esC = esA ++ (esB ++ esC) ∧
      rL.size = rR.size ∧
      chainData h7 [0] = some esA ∧ chainData h7 [1] = some esB ∧
      chainData h7 [2] = some esC) :=
  concat_assoc_of_disjoint_reprs h7 lA7 lB7 lC7 [0] [1] [2] [] [] [] [] [] 10
    (show ∀ p ∈ h7.mem, p.1 < h7.fresh by decide) rfl rfl rfl
    (by decide) (by decide) (by decide)
    (by decide) (by decide) (by decide) (by decide)

/-! ### Concrete executions of the public constructors -/

/-- C10: `List::default()` — field-wise defaults from `#[derive(Default)]`
(`Option` → `None`, `usize` → `0`) — is the empty list: no head, no tail,
size 0, and it compares equal to `List::empty()` under the embedded
`PartialEq`. -/
theorem default_c10_empty :
    defaultList = empty ∧ defaultList.head = none ∧
    defaultList.tail = none ∧ defaultList.size = 0 ∧
    eqF (⟨[], 0⟩ : Heap Nat) 1 defaultList empty = some true :=
  ⟨rfl, rfl, rfl, rfl, rfl⟩

/-- C2: the tail invariant fails on a value produced by a public
operation: `empty().prepend(9)` yields a list whose `head` is a node link
while its `tail` is `None`, because `prepend` copies `self.tail` verbatim
instead of designating the new node when `self` was empty (contrast
`create`, which falls back to the new head node). -/
theorem tail_invariant_c2_failing :
    (prepend (⟨[], 0⟩ : Heap Nat) empty 9).1.head = some 0 ∧
    (prepend (⟨[], 0⟩ : Heap Nat) empty 9).1.tail = none ∧
    (prepend (⟨[], 0⟩ : Heap Nat) empty 9).1.size = 1 :=
  ⟨rfl, rfl, rfl⟩

/-- C3: `last()` fails on a non-empty list built solely by repeated
`prepend` starting from `empty()`: for `empty().prepend(9)` — size 1,
`first()` = 9, iteration yields `[9]` — `last()` returns the absent-value
indicator `None` instead of a reference to 9, because the list's weak
tail link was never set. -/
theorem last_c3_failing :
    (prepend (⟨[], 0⟩ : Heap Nat) empty 9).1.size = 1 ∧
    first (prepend (⟨[], 0⟩ : Heap Nat) empty 9).2
      (prepend (⟨[], 0⟩ : Heap Nat) empty 9).1 = some 9 ∧
    elemsF (prepend (⟨[], 0⟩ : Heap Nat) empty 9).2 2
      (prepend (⟨[], 0⟩ : Heap Nat) empty 9).1 = some [9] ∧
    last (prepend (⟨[], 0⟩ : Heap Nat) empty 9).2
      (prepend (⟨[], 0⟩ : Heap Nat) empty 9).1 = none :=
  ⟨rfl, rfl, rfl, rfl⟩

def hC1p : ListV × Heap Nat := prepend (⟨[], 0⟩ : Heap Nat) empty 9

def lA1 : ListV := (create hC1p.2 1 hC1p.1).1

def hA1 : Heap Nat := (create hC1p.2 1 hC1p.1).2

def lB1 : ListV := (create hA1 5 empty).1

def hB1 : Heap Nat := (create hA1 5 empty).2

/-- C1: concat silently drops an element.  `A = create(1,
empty().prepend(9))` is the public two-element list `[1, 9]` — its
offset 1 is 9 and iteration yields `[1, 9]` — and `B = [5]`.  With `A`
the sole owner of its head, `A.concat(&B)` takes the in-place path and
returns a list whose cached length is 3 = len(A) + len(B), but whose
iteration yields only `[1, 5]`: offset 1 holds 5 instead of `A[1] = 9`,
and offset 2 hits the `assert!` panic inside `Node::index`.  The splice
trusted `A`'s cached tail, which prepend-on-empty had left pointing at
the wrong node, so the first node's link was overwritten and 9 was
dropped. -/
theorem concat_c1_failing :
    lA1.size = 2 ∧ index hB1 lA1 1 = IdxResult.ok 9 ∧
    elemsF hB1 10 lA1 = some [1, 9] ∧ lB1.size = 1 ∧
    ∃ r h', concat hB1 [lB1] 10 lA1 lB1 = some (r, h') ∧
      r.size = 3 ∧ elemsF h' 10 r = some [1, 5] ∧
      index h' r 1 = IdxResult.ok 5 ∧ index h' r 2 = IdxResult.fault :=
  ⟨rfl, rfl, rfl, rfl, _, _, rfl, rfl, rfl, rfl, rfl⟩

def lC7f : ListV := (create hB1 7 empty).1

def h7f : Heap Nat := (create hB1 7 empty).2

/-- C7: `concat` is not associative element-wise on reachable inputs.
With `A = create(1, empty().prepend(9))` — the public list `[1, 9]`,
whose cached tail prepend-on-empty left pointing at the head node —
`B = [5]` and `C = [7]`: computing `A.concat(&B).concat(&C)` while
another clone of `A` is alive (strong count of `A`'s head is 2, so the
first call takes the copy path, which walks the actual chain) yields the
correct `[1, 9, 5, 7]` of size 4; computing `A.concat(&B.concat(&C))`
with `A` the sole owner of its head takes the in-place path, whose final
splice trusts `A`'s stale cached tail, overwrites the first node's link
and drops the element 9: the result has size 4 but iterates as
`[1, 5, 7]` — offset 1 is 5 instead of 9 and offset 3 hits the
`assert!` panic inside `Node::index`.  The two association orders
disagree element-wise, refuting `(a ++ b) ++ c == a ++ (b ++ c)`. -/
theorem concat_c7_assoc_failing :
    elemsF h7f 10 lA1 = some [1, 9] ∧ elemsF h7f 10 lB1 = some [5] ∧
    elemsF h7f 10 lC7f = some [7] ∧
    ∃ r1 h1 rL hL r2 h2 rR hR,
      concat h7f [lA1, lB1, lC7f] 10 lA1 lB1 = some (r1, h1) ∧
      concat h1 [lA1, lC7f] 10 r1 lC7f = some (rL, hL) ∧
      concat h7f [lA1, lC7f] 10 lB1 lC7f = some (r2, h2) ∧
      concat h2 [r2, lC7f] 10 lA1 r2 = some (rR, hR) ∧
      rL.size = 4 ∧ elemsF hL 10 rL = some [1, 9, 5, 7] ∧
      index hL rL 1 = IdxResult.ok 9 ∧
      rR.size = 4 ∧ elemsF hR 10 rR = some [1, 5, 7] ∧
      index hR rR 1 = IdxResult.ok 5 ∧
      index hR rR 3 = IdxResult.fault :=
  ⟨rfl, rfl, rfl, _, _, _, _, _, _, _, _,
   rfl, rfl, rfl, rfl, rfl, rfl, rfl, rfl, rfl, rfl, rfl⟩

def hM2 : ListV × Heap Nat := create (⟨[], 0⟩ : Heap Nat) 2 empty

def lc9 : ListV := (create hM2.2 1 hM2.1).1

def hc9 : Heap Nat := (create hM2.2 1 hM2.1).2

def la9 : ListV := (prepend hc9 lc9 0).1

def ha9 : Heap Nat := (prepend hc9 lc9 0).2

def lb9 : ListV := (create ha9 9 empty).1

def hb9 : Heap Nat := (create ha9 9 empty).2

/-- C9: the cached length stops matching full iteration after a public
sequence of operations.  `c = create(1, create(2, empty))`,
`a = c.prepend(0)`, `b = [9]`: `a.concat(&b)` passes the head-only
strong-count check (count of `a`'s head is 1 even though `c` is alive and
shares the rest of the chain) and splices in place.  The concat result
itself is the expected `[0, 1, 2, 9]` of size 4, but the still-live `c`
now has `len() = 2` while fully iterating it yields the three elements
`[1, 2, 9]`. -/
theorem len_c9_failing :
    elemsF hb9 10 lc9 = some [1, 2] ∧ lc9.size = 2 ∧
    ∃ r h', concat hb9 [lc9, lb9] 10 la9 lb9 = some (r, h') ∧
      r.size = 4 ∧ elemsF h' 10 r = some [0, 1, 2, 9] ∧
      elemsF h' 10 lc9 = some [1, 2, 9] :=
  ⟨rfl, rfl, _, _, rfl, rfl, rfl, rfl⟩

def h5cyc : Heap Nat :=
  ⟨[(2, ⟨0, ⟨some 1, some 0, 4⟩, false⟩),
    (1, ⟨1, ⟨some 0, some 0, 3⟩, false⟩),
    (0, ⟨2, ⟨some 1, some 0, 2⟩, false⟩)], 3⟩

theorem elemsF_h5cyc_none :
    ∀ (fuel : Nat) (l : ListV), l.head = some 1 ∨ l.head = some 0 →
      elemsF h5cyc fuel l = none := by
  intro fuel
  induction fuel with
  | zero =>
    intro l hl
    rcases hl with hl | hl <;> exact elemsF_zero_some h5cyc l _ hl
  | succ fuel ih =>
    intro l hl
    rcases hl with hl | hl
    · rw [elemsF_succ h5cyc fuel l 1 hl]
      show (elemsF h5cyc fuel (⟨some 0, some 0, 3⟩ : ListV)).map
        (fun es => 1 :: es) = none
      rw [ih ⟨some 0, some 0, 3⟩ (Or.inr rfl)]
      rfl
    · rw [elemsF_succ h5cyc fuel l 0 hl]
      show (elemsF h5cyc fuel (⟨some 1, some 0, 2⟩ : ListV)).map
        (fun es => 2 :: es) = none
      rw [ih ⟨some 1, some 0, 2⟩ (Or.inl rfl)]
      rfl

/-- C5: a clone taken before the call is corrupted even though it is a
clone of an operand.  `c = [1, 2]`, `a = c.prepend(0)`, and `b2 =
c.clone()` (an identical List value).  `a.concat(&c)` sees a strong count
of 1 on `a`'s head — `c` and `b2` do not hold that node — and takes the
in-place path, splicing the right operand `c` onto a chain that ends
inside `c` itself.  The result is a cyclic chain: afterwards iterating
the prior clone `b2` never terminates (`elemsF` is `none` at every fuel),
although before the call it yielded `[1, 2]`. -/
theorem concat_c5_failing :
    elemsF ha9 10 lc9 = some [1, 2] ∧
    concat ha9 [lc9, lc9] 10 la9 lc9 = some (⟨some 2, some 0, 5⟩, h5cyc) ∧
    ∀ fuel, elemsF h5cyc fuel lc9 = none := by
  refine ⟨rfl, rfl, ?_⟩
  intro fuel
  exact elemsF_h5cyc_none fuel lc9 (Or.inl rfl)

/-! ### Which node's flag gates the in-place path -/

def h4 : Heap Nat :=
  ⟨[(0, ⟨2, ⟨none, none, 0⟩, true⟩), (1, ⟨1, ⟨some 0, some 0, 1⟩, false⟩)],
    2⟩

def lA4 : ListV := ⟨some 1, some 0, 2⟩

def hb4 : ListV × Heap Nat := create h4 9 empty

/-- C4 counterexample: the claim places the fast-path gate on the *last*
node of `self`'s chain, located via the cached tail.  Concretely,
`A = [1, 2]` with head node at address 1 and tail node at address 0, the
tail node's mutation flag already set and the head node's clear, and
`B = [9]` with `strong_count(A.head) = 1`.  If the gate were the tail
node's flag, this `concat` would find it set and fall back to the copy
path, leaving node 0 untouched; instead the code claims the head node's
flag and takes the in-place path: the result reuses `A`'s chain (same
head link) and node 0 — its flag still set by someone else — has its
`next` overwritten to point at `B`'s chain. -/
theorem concat_c4_counterexample :
    (hb4.2.find? 0).map (·.mutating) = some true ∧
    (hb4.2.find? 1).map (·.mutating) = some false ∧
    strongCount hb4.2 (lA4 :: [hb4.1]) 1 = 1 ∧
    (hb4.2.find? 0).map (·.next.head) = some none ∧
    ∃ r h', concat hb4.2 [hb4.1] 10 lA4 hb4.1 = some (r, h') ∧
      r.head = lA4.head ∧
      (h'.find? 0).map (·.next.head) = some (some 2) :=
  ⟨rfl, rfl, rfl, rfl, _, _, rfl, rfl, rfl⟩

theorem concatMutTop_head (h : Heap T) (fuel : Nat) (self right : ListV)
    (a : Nat) (hsh : self.head = some a) :
    ∀ rh, concatMutTop h fuel self right = some rh → rh.1.head = some a := by
  intro rh heq
  obtain ⟨sh, st, ss⟩ := self
  cases hsh
  simp only [concatMutTop] at heq
  cases hcm : concatMut h fuel a right with
  | none => rw [hcm] at heq; simp at heq
  | some h1 =>
    rw [hcm] at heq
    simp only [Option.map_some'] at heq
    cases st with
    | none =>
      simp only [Option.some.injEq] at heq
      rw [← heq]
      rfl
    | some t =>
      have heq2 : (match (match h1.find? t with
                   | none => none
                   | some _ => some (h1.writeNext t right)) with
            | none => none
            | some h2 =>
              some ((⟨(some a).orElse fun _ => right.head, right.tail,
                ss + right.size⟩ : ListV), h2)) = some rh := heq
      cases hft : h1.find? t with
      | none => rw [hft] at heq2; simp at heq2
      | some nt =>
        rw [hft] at heq2
        simp only [Option.some.injEq] at heq2
        rw [← heq2]
        rfl

/-- C4 amended: `concat`'s in-place path is gated by the mutation flag of
the *first* node of `self`'s chain, reached through the head link — the
compare-and-swap runs on `get_unwrapped_link_node_mut(link)` with
`link = self.head` — not by the last node's flag.  Under the fast-path
preconditions (`self` and `right` non-empty, strong count of `self.head`
equal to 1): a set head-node flag forces the immutable copy path, and a
clear head-node flag admits the in-place path, whose result reuses
`self`'s chain (same head link) and which stores `false` back into the
head node's flag on exit. -/
theorem concat_c4_flag_on_head (h : Heap T) (others : List ListV)
    (fuel : Nat) (self right : ListV) (a : Nat) (n : Node T)
    (hsh : self.head = some a) (hrz : right.size ≠ 0)
    (hsc : strongCount h (self :: others) a = 1)
    (hf : h.find? a = some n) :
    (n.mutating = true →
      concat h others fuel self right = concatList h fuel a right) ∧
    (n.mutating = false →
      ∀ r h', concat h others fuel self right = some (r, h') →
        r.head = self.head ∧
        ∀ m, h'.find? a = some m → m.mutating = false) := by
  obtain ⟨sh, st, ss⟩ := self
  cases hsh
  have hconcat : concat h others fuel ⟨some a, st, ss⟩ right =
      (if right.size = 0 then some ((⟨some a, st, ss⟩ : ListV), h)
       else if strongCount h (⟨some a, st, ss⟩ :: others) a ≠ 1 then
         concatList h fuel a right
       else match h.find? a with
         | none => none
         | some n =>
           if n.mutating then concatList h fuel a right
           else
             match concatMutTop (h.writeFlag a true) fuel
                 ⟨some a, st, ss⟩ right with
             | none => none
             | some rh => some (rh.1, rh.2.writeFlag a false)) := rfl
  rw [hconcat, if_neg hrz, if_neg (by simp [hsc])]
  simp only [hf]
  constructor
  · intro hm
    rw [if_pos hm]
  · intro hm r h' heq
    rw [if_neg (by simp [hm])] at heq
    cases hct : concatMutTop (h.writeFlag a true) fuel
        ⟨some a, st, ss⟩ right with
    | none => rw [hct] at heq; simp at heq
    | some rh =>
      rw [hct] at heq
      simp only [Option.some.injEq, Prod.mk.injEq] at heq
      obtain ⟨hr, hh'⟩ := heq
      constructor
      · rw [← hr]
        exact concatMutTop_head (h.writeFlag a true) fuel
          ⟨some a, st, ss⟩ right a rfl rh hct
      · intro m hm'
        rw [← hh', Heap.find?_writeFlag, if_pos rfl] at hm'
        cases hra : rh.2.find? a with
        | none => rw [hra] at hm'; simp at hm'
        | some mm =>
          rw [hra] at hm'
          simp only [Option.map_some', Option.some.injEq] at hm'
          rw [← hm']

def h4w : Heap Nat :=
  ⟨[(0, ⟨2, ⟨none, none, 0⟩, false⟩), (1, ⟨1, ⟨some 0, some 0, 1⟩, true⟩)],
    2⟩

def hb4w : ListV × Heap Nat := create h4w 9 empty

/-- Witness for the amended C4 at a concrete input: `A = [1, 2]` whose
head node's flag is set — the concat falls back to the immutable copy
path exactly as the head-node gate dictates. -/
theorem concat_c4_flag_on_head_witness :
    concat hb4w.2 [hb4w.1] 10 lA4 hb4w.1 = concatList hb4w.2 10 1 hb4w.1 :=
  (concat_c4_flag_on_head hb4w.2 [hb4w.1] 10 lA4 hb4w.1 1
    ⟨1, ⟨some 0, some 0, 1⟩, true⟩ rfl (by decide) rfl rfl).1 rfl
